import Mathlib

/-!
# Verification of the project-deployment orchestration script

A shallow embedding of `deploy/create_project.py`: the generated-fields
store, the resumable step pipeline (`setup_project`), project ordering and
config assembly, cross-project validation (`validate_project_configs`),
and the top-level driver loop (`main`).

External collaborators (gcloud invocations, go binaries, YAML I/O) are
opaque: a step's effect on the generated-fields store is modelled as a
function `GenFields → Option GenFields`, where `none` models the action
raising an exception. Persistence (`write_generated_fields`) is an event
recorded in an execution trace; traces also record which step indices were
executed or skipped, so that resumption and skipping claims can be stated.
-/

namespace CreateProject

/-- One project's generated-fields record (a Python dict in the source).
`failed_step` is the resume checkpoint ("failed_step" key); `fields` holds
all other runtime-derived key/value entries (project_number,
log_sink_service_account, ...). -/
structure Entry where
  failed_step : Option Nat
  fields : List (String × String)
deriving DecidableEq, Repr

/-- The empty record, `{}` in Python. -/
def Entry.empty : Entry := ⟨none, []⟩

/-- Python falsiness of the dict: `not d` is true exactly when the dict is
empty. -/
def Entry.isEmptyDict (e : Entry) : Bool :=
  e.failed_step.isNone && e.fields.isEmpty

/-- Generated fields of the forseti (fleet-management) project, written by
`install_forseti`. -/
structure ForsetiGenerated where
  service_account : String
  server_bucket : String
deriving DecidableEq, Repr

/-- The whole generated-fields mapping (`config.generated_fields`):
`projects` maps project id to its record; `forseti` is the nested
fleet-management record. -/
structure GenFields where
  projects : List (String × Entry)
  forseti : Option ForsetiGenerated
deriving DecidableEq, Repr

/-- Insertion-order-preserving update of an association list, mirroring
Python dict assignment `d[k] = v`. -/
def setAssoc (l : List (String × Entry)) (k : String) (v : Entry) :
    List (String × Entry) :=
  match l with
  | [] => [(k, v)]
  | (k', v') :: t => if k' = k then (k, v) :: t else (k', v') :: setAssoc t k v

/-- Association-list lookup, mirroring Python `d.get(k)`. -/
def getAssoc (l : List (String × Entry)) (k : String) : Option Entry :=
  match l with
  | [] => none
  | (k', v') :: t => if k' = k then some v' else getAssoc t k

/-- `config.generated_fields['projects'].get(project_id)`. -/
def GenFields.getEntry (gf : GenFields) (pid : String) : Option Entry :=
  getAssoc gf.projects pid

/-- `config.generated_fields['projects'][project_id] = e`. -/
def GenFields.setEntry (gf : GenFields) (pid : String) (e : Entry) : GenFields :=
  { gf with projects := setAssoc gf.projects pid e }

/-- `project_generated_fields['failed_step'] = n` (the record is the one
stored under `pid`; the source mutates it in place through an alias). -/
def GenFields.setFailedStep (gf : GenFields) (pid : String) (n : Nat) : GenFields :=
  match gf.getEntry pid with
  | some e => gf.setEntry pid { e with failed_step := some n }
  | none => gf

/-- `project_generated_fields.pop('failed_step', None)`. -/
def GenFields.clearFailedStep (gf : GenFields) (pid : String) : GenFields :=
  match gf.getEntry pid with
  | some e => gf.setEntry pid { e with failed_step := none }
  | none => gf

/-- A `Step` namedtuple: the bound action (`func`), a description, and the
updatable flag. The action returns `none` when it raises an exception. -/
structure Step where
  func : GenFields → Option GenFields
  description : String
  updatable : Bool

/-- A project definition dict, as consumed by the embedded fragments:
identifier, the requested `enabled_apis` list, and the set of keys declared
under `resources`. -/
structure ProjDict where
  project_id : String
  enabled_apis : List String
  resources : List String
deriving DecidableEq, Repr

/-- The forseti block of the root config (`root_config['forseti']`). -/
structure ForsetiConfig where
  project : ProjDict
deriving DecidableEq, Repr

/-- The root configuration: the overall `allowed_apis` allowlist (when
declared), the optional audit-logs project, the optional forseti block, and
the ordinary project definitions in declared order. -/
structure RootConfig where
  allowed_apis : Option (List String)
  audit_logs_project : Option ProjDict
  forseti : Option ForsetiConfig
  projects : List ProjDict

/-- The `ProjectConfig` namedtuple (minus `generated_fields`, which is
threaded as explicit state through the pipeline). -/
structure ProjectConfig where
  root : RootConfig
  project : ProjDict
  audit_logs_project : Option ProjDict
  extra_steps : List Step

/-- Observable events of one `setup_project` run: step `i`'s action was
invoked, step `i` was skipped as not updatable, or the store was persisted
(`write_generated_fields`). -/
inductive Event where
  | exec (i : Nat)
  | skip (i : Nat)
  | persist
deriving DecidableEq, Repr

/-- Python falsiness of `config.generated_fields['projects'].get(project_id)`:
true when the entry is absent (`None`) or the empty dict. -/
def entryFalsy : Option Entry → Bool
  | none => true
  | some e => e.isEmptyDict

/-- The `deployed` classification in `setup_project`: a falsy entry means
not deployed; otherwise deployed iff `'failed_step' not in` the record. -/
def deployed_of (entry0 : Option Entry) : Bool :=
  if entryFalsy entry0 then false
  else (entry0.getD Entry.empty).failed_step.isNone

/-- `starting_step = project_generated_fields.get('failed_step', 1)`
(a falsy entry has just been replaced by `{}`, giving 1). -/
def starting_of (entry0 : Option Entry) : Nat :=
  if entryFalsy entry0 then 1
  else ((entry0.getD Entry.empty).failed_step).getD 1

/-- The step loop of `setup_project`: `rest` is the list of remaining steps
and `i` the 1-based number of its head. Skipped steps record a `skip`
event; an executed action records `exec` followed by `persist` on success.
On an exception the loop stops, records `failed_step` and persists only
when the project was classified not deployed, and yields `false`. After the
loop the `failed_step` marker is popped and the store persisted once more. -/
def runSteps (deployed : Bool) (pid : String) (rest : List Step) (i : Nat)
    (gf : GenFields) : Bool × GenFields × List Event :=
  match rest with
  | [] => (true, gf.clearFailedStep pid, [Event.persist])
  | s :: t =>
    if deployed && !s.updatable then
      let r := runSteps deployed pid t (i + 1) gf
      (r.1, r.2.1, Event.skip i :: r.2.2)
    else
      match s.func gf with
      | none =>
        if deployed then (false, gf, [Event.exec i])
        else (false, gf.setFailedStep pid i, [Event.exec i, Event.persist])
      | some gf' =>
        let r := runSteps deployed pid t (i + 1) gf'
        (r.1, r.2.1, Event.exec i :: Event.persist :: r.2.2)

/-- `setup_project`: classify the project, create its record if absent (or
falsy), compute the starting step, and run the loop from there over
`_SETUP_STEPS + config.extra_steps`. The base step list is a parameter
because its actions are external collaborator calls. Returns the success
flag, the final store, and the event trace. -/
def setup_project (base : List Step) (config : ProjectConfig)
    (gf0 : GenFields) : Bool × GenFields × List Event :=
  let pid := config.project.project_id
  let steps := base ++ config.extra_steps
  let entry0 := gf0.getEntry pid
  let gf := if entryFalsy entry0 then gf0.setEntry pid Entry.empty else gf0
  let deployed := deployed_of entry0
  let starting_step := starting_of entry0
  runSteps deployed pid (steps.drop (starting_step - 1)) starting_step gf

/-- The 1-based indices of the `exec` events of a trace, in order. -/
def execIdxs : List Event → List Nat
  | [] => []
  | Event.exec i :: t => i :: execIdxs t
  | Event.skip _ :: t => execIdxs t
  | Event.persist :: t => execIdxs t

/-- The 1-based indices (counting from `i`) of the updatable steps of a
list, in order. -/
def updatableIdxs : List Step → Nat → List Nat
  | [], _ => []
  | s :: t, i =>
    if s.updatable then i :: updatableIdxs t (i + 1)
    else updatableIdxs t (i + 1)

/-- Responses of the external collaborators used by the forseti-related
step actions: whether the installer binary succeeds, the probed server
service account and bucket for a forseti project id, and whether the
access-granting binary succeeds for a (project id, service account) pair. -/
structure ExternalEnv where
  install_ok : Bool
  server_service_account : String → String
  server_bucket : String → String
  grant_ok : String → String → Bool

/-- `install_forseti`: run the external installer (which may raise), then
store the probed service account and server bucket under the `forseti` key
of the generated fields. -/
def install_forseti (env : ExternalEnv) (forseti_project_id : String) :
    GenFields → Option GenFields := fun gf =>
  if env.install_ok then
    some { gf with
           forseti := some ⟨env.server_service_account forseti_project_id,
                            env.server_bucket forseti_project_id⟩ }
  else none

/-- The body of `get_forseti_access_granter_step`'s `grant_access` closure:
read `generated_fields['forseti']['service_account']` (a `KeyError`, i.e.
an exception, when the forseti fields were never generated) and call the
external grant binary, which may itself fail. -/
def grant_access (env : ExternalEnv) (project_id : String) :
    GenFields → Option GenFields := fun gf =>
  match gf.forseti with
  | none => none
  | some f =>
    if env.grant_ok project_id f.service_account then some gf else none

/-- `get_forseti_access_granter_step`: the per-project extra step granting
the forseti service account access; not updatable. -/
def get_forseti_access_granter_step (env : ExternalEnv) (project_id : String) :
    Step :=
  { func := grant_access env project_id
    description := "Grant Access to Forseti Service account"
    updatable := false }

/-- The `Install Forseti` extra step of the forseti project's context. -/
def install_forseti_step (env : ExternalEnv) (forseti_project_id : String) :
    Step :=
  { func := install_forseti env forseti_project_id
    description := "Install Forseti"
    updatable := false }

/-- The `want_project` closure of `main`: a null/absent definition is never
wanted; otherwise wanted iff the selection set equals `{'*'}` or the
project id belongs to it. -/
def want_project (want_projects : Finset String) (p : Option ProjDict) : Bool :=
  match p with
  | none => false
  | some d =>
    decide (want_projects = {"*"}) || decide (d.project_id ∈ want_projects)

/-- The audit-logs portion of `main`'s context assembly: the remote audit
logs project first, if present and selected, with no extra steps. -/
def audit_contexts (root : RootConfig) (want : Finset String) :
    List ProjectConfig :=
  match root.audit_logs_project with
  | none => []
  | some a =>
    if want_project want (some a) then
      [{ root := root, project := a, audit_logs_project := none
         extra_steps := [] }]
    else []

/-- The forseti portion of `main`'s context assembly: present when the
forseti block is configured and its project selected; extra steps install
forseti, grant it access to itself, and (when an audit-logs project is
configured) to the audit-logs project. -/
def forseti_contexts (env : ExternalEnv) (root : RootConfig)
    (want : Finset String) : List ProjectConfig :=
  match root.forseti with
  | none => []
  | some fc =>
    if want_project want (some fc.project) then
      [{ root := root, project := fc.project
         audit_logs_project := root.audit_logs_project
         extra_steps :=
           [install_forseti_step env fc.project.project_id,
            get_forseti_access_granter_step env fc.project.project_id] ++
           (match root.audit_logs_project with
            | some a => [get_forseti_access_granter_step env a.project_id]
            | none => []) }]
    else []

/-- The ordinary-projects portion of `main`'s context assembly: each
declared project, in order, filtered by selection; when a forseti block is
configured (selected or not), an access-granter extra step is appended. -/
def ordinary_contexts (env : ExternalEnv) (root : RootConfig)
    (want : Finset String) : List ProjectConfig :=
  (root.projects.filter (fun p => want_project want (some p))).map
    (fun p =>
      { root := root, project := p
        audit_logs_project := root.audit_logs_project
        extra_steps :=
          match root.forseti with
          | some _ => [get_forseti_access_granter_step env p.project_id]
          | none => [] })

/-- The full context assembly of `main` (source lines 687-740): audit logs
first, then forseti, then ordinary projects in declared order. -/
def assemble (env : ExternalEnv) (root : RootConfig) (want : Finset String) :
    List ProjectConfig :=
  audit_contexts root want ++ forseti_contexts env root want ++
    ordinary_contexts env root want

/-- `missing_allowed_apis[api].append(pid)` on an insertion-ordered
association list (a `defaultdict(list)` keyed by API). -/
def add_missing_api (m : List (String × List String)) (api pid : String) :
    List (String × List String) :=
  match m with
  | [] => [(api, [pid])]
  | (a, l) :: t =>
    if a = api then (a, l ++ [pid]) :: t else (a, l) :: add_missing_api t api pid

/-- `validate_project_configs`: no allowlist declared means no check;
otherwise collect, per disallowed API, the ids of the assembled projects
requesting it, and fail (`some` report) exactly when the collection is
non-empty. -/
def validate_project_configs (overall_allowed : Option (List String))
    (projects : List ProjectConfig) : Option (List (String × List String)) :=
  match overall_allowed with
  | none => none
  | some allowed =>
    let missing := projects.foldl
      (fun m p => p.project.enabled_apis.foldl
        (fun m api =>
          if api ∈ allowed then m
          else add_missing_api m api p.project.project_id) m) []
    if missing.isEmpty then none else some missing

/-- Observable events of the driver loop: a project's setup was attempted,
an event of that project's pipeline occurred, or the fleet-wide rule
generator was invoked. -/
inductive DEvent where
  | attempt (pid : String)
  | step (pid : String) (e : Event)
  | ruleGen
deriving DecidableEq, Repr

/-- The driver loop of `main`: run `setup_project` per context in assembled
order, returning on the first failure without attempting later contexts;
when all succeed and a forseti block is configured, invoke the rule
generator. The returned flag records whether the loop ran to completion. -/
def run_projects (base : List Step) (forseti_configured : Bool)
    (configs : List ProjectConfig) (gf : GenFields) :
    Bool × GenFields × List DEvent :=
  match configs with
  | [] => (true, gf, if forseti_configured then [DEvent.ruleGen] else [])
  | c :: t =>
    let r := setup_project base c gf
    let evs := DEvent.attempt c.project.project_id ::
      r.2.2.map (DEvent.step c.project.project_id)
    if r.1 then
      let r2 := run_projects base forseti_configured t r.2.1
      (r2.1, r2.2.1, evs ++ r2.2.2)
    else
      (false, r.2.1, evs)

/-- The deployment portion of `main`: assemble the contexts, validate them,
and — only when validation passes — run the driver loop. A validation
failure is returned as `some` report, with no event having occurred. -/
def main_run (env : ExternalEnv) (base : List Step) (root : RootConfig)
    (want : Finset String) (gf : GenFields) :
    Option (List (String × List String)) × Bool × GenFields × List DEvent :=
  let projects := assemble env root want
  match validate_project_configs root.allowed_apis projects with
  | some err => (some err, false, gf, [])
  | none => (none, run_projects base root.forseti.isSome projects gf)

/-- The pure API-set computation of `enable_services_apis`: the requested
`enabled_apis` plus the always-added deployment-manager and
resource-manager APIs, plus the APIs implied by declared resource kinds. -/
def enable_services_apis_want (p : ProjDict) : Finset String :=
  let w := insert "deploymentmanager.googleapis.com"
    (insert "cloudresourcemanager.googleapis.com" p.enabled_apis.toFinset)
  let w := if "gce_instances" ∈ p.resources
    then insert "compute.googleapis.com" w else w
  let w := if "iam_policies" ∈ p.resources ∨ "iam_custom_roles" ∈ p.resources
    then insert "iam.googleapis.com" w else w
  let w := if "chc_datasets" ∈ p.resources
    then insert "healthcare.googleapis.com" w else w
  let w := if "gke_clusters" ∈ p.resources
    then insert "container.googleapis.com" w else w
  w

/-- The project ids requesting `api`, in assembled order, one occurrence
per occurrence of `api` in the project's `enabled_apis` list. -/
def api_requesters (api : String) (projects : List ProjectConfig) :
    List String :=
  (projects.map (fun p =>
    (p.project.enabled_apis.filter (fun a => a = api)).map
      (fun _ => p.project.project_id))).flatten

/-- Lookup in an error report (`missing_allowed_apis[api]`). -/
def reportLookup (m : List (String × List String)) (api : String) :
    Option (List String) :=
  match m with
  | [] => none
  | (a, l) :: t => if a = api then some l else reportLookup t api

/-- The (api, project id) occurrences that `validate_project_configs`
feeds to the report, in iteration order. -/
def missing_pairs (allowed : List String) (projects : List ProjectConfig) :
    List (String × String) :=
  (projects.map (fun p => p.project.enabled_apis.filterMap
    (fun api => if api ∈ allowed then none
      else some (api, p.project.project_id)))).flatten

/-- `_SETUP_STEPS`: the fixed base step list, with the source's
descriptions and updatable flags; the nine actions themselves are external
collaborator calls and are taken as arguments. -/
def SETUP_STEPS (get_or_create_new_project setup_billing
    enable_services_apis create_compute_images create_deletion_lien
    deploy_resources create_stackdriver_account create_alerts
    add_project_generated_fields : GenFields → Option GenFields) :
    List Step :=
  [⟨get_or_create_new_project, "Get or create project", false⟩,
   ⟨setup_billing, "Set up billing", false⟩,
   ⟨enable_services_apis, "Enable APIs", true⟩,
   ⟨create_compute_images, "Deploy compute images", true⟩,
   ⟨create_deletion_lien, "Create deletion lien", true⟩,
   ⟨deploy_resources, "Deploy resources", true⟩,
   ⟨create_stackdriver_account, "Create Stackdriver account", true⟩,
   ⟨create_alerts, "Create Stackdriver alerts", true⟩,
   ⟨add_project_generated_fields, "Generate project fields", true⟩]

/-! ## Concrete fixtures (external actions instantiated for evaluation) -/

/-- A step whose external action succeeds without touching the store. -/
def idStep : Step := ⟨fun g => some g, "side-effect only step", true⟩

/-- A successful step that is not safe to re-run on updates. -/
def idStepNonUpdatable : Step := ⟨fun g => some g, "one-time step", false⟩

/-- A step whose external action raises an exception. -/
def failingStep : Step := ⟨fun _ => none, "failing step", true⟩

/-- A root config with no allowlist, no audit-logs project and no forseti. -/
def sampleRoot : RootConfig := ⟨none, none, none, []⟩

/-- A minimal project definition. -/
def sampleProj : ProjDict := ⟨"p1", [], []⟩

/-- A minimal deployment context for `sampleProj`. -/
def sampleConfig : ProjectConfig := ⟨sampleRoot, sampleProj, none, []⟩

/-- A generated-fields store with no entries. -/
def emptyStore : GenFields := ⟨[], none⟩

/-- A store recording that `p1` previously failed at step 2. -/
def resumeStore : GenFields := ⟨[("p1", ⟨some 2, []⟩)], none⟩

/-- A store recording a completed prior deployment of `p1`. -/
def deployedStore : GenFields :=
  ⟨[("p1", ⟨none, [("project_number", "42")]⟩)], none⟩

/-- A store holding the fresh empty entry the pipeline creates for `p1`. -/
def freshEntryStore : GenFields := ⟨[("p1", Entry.empty)], none⟩

/-- Concrete external-collaborator responses. -/
def sampleEnv : ExternalEnv :=
  ⟨true, fun _ => "forseti-sa", fun _ => "forseti-bucket", fun _ _ => true⟩

/-- An audit-logs project definition. -/
def auditProj : ProjDict := ⟨"audit", [], []⟩

/-- A forseti project definition. -/
def forsetiProj : ProjDict := ⟨"forseti", [], []⟩

/-- An ordinary data project definition. -/
def dataProj : ProjDict := ⟨"data1", [], []⟩

/-- A root config with audit-logs, forseti and one ordinary project. -/
def fleetRoot : RootConfig :=
  ⟨none, some auditProj, some ⟨forsetiProj⟩, [dataProj]⟩

/-- A context whose project requests one allowed and one disallowed API. -/
def wProj : ProjectConfig :=
  ⟨sampleRoot, ⟨"p1", ["a.googleapis.com", "b.googleapis.com"], []⟩, none, []⟩

/-! ## Store lemmas -/

theorem getAssoc_setAssoc_self (l : List (String × Entry)) (k : String)
    (v : Entry) : getAssoc (setAssoc l k v) k = some v := by
  induction l with
  | nil => simp [setAssoc, getAssoc]
  | cons h t ih =>
    obtain ⟨k', v'⟩ := h
    by_cases hk : k' = k
    · simp [setAssoc, getAssoc, hk]
    · simp [setAssoc, getAssoc, hk, ih]

theorem getEntry_setEntry_self (gf : GenFields) (pid : String) (e : Entry) :
    (gf.setEntry pid e).getEntry pid = some e := by
  simp [GenFields.setEntry, GenFields.getEntry, getAssoc_setAssoc_self]

theorem getEntry_setFailedStep (gf : GenFields) (pid : String) (n : Nat)
    (e : Entry) (h : gf.getEntry pid = some e) :
    (gf.setFailedStep pid n).getEntry pid =
      some { e with failed_step := some n } := by
  simp [GenFields.setFailedStep, h, getEntry_setEntry_self]

theorem getEntry_clearFailedStep (gf : GenFields) (pid : String) (e : Entry)
    (h : (gf.clearFailedStep pid).getEntry pid = some e) :
    e.failed_step = none := by
  unfold GenFields.clearFailedStep at h
  cases he : gf.getEntry pid with
  | none => rw [he] at h; rw [he] at h; exact absurd h (by simp [he])
  | some e0 =>
    rw [he] at h
    rw [getEntry_setEntry_self] at h
    cases h; rfl

/-! ## Pipeline-loop lemmas -/

theorem runSteps_exec_ge (deployed : Bool) (pid : String) :
    ∀ (rest : List Step) (i : Nat) (gf : GenFields) (j : Nat),
      j ∈ execIdxs (runSteps deployed pid rest i gf).2.2 → i ≤ j := by
  intro rest
  induction rest with
  | nil => intro i gf j hj; simp [runSteps, execIdxs] at hj
  | cons s t ih =>
    intro i gf j hj
    unfold runSteps at hj
    by_cases hsk : deployed && !s.updatable
    · rw [if_pos hsk] at hj
      simp only [execIdxs] at hj
      exact Nat.le_of_succ_le (ih (i + 1) gf j hj)
    · rw [if_neg hsk] at hj
      cases hf : s.func gf with
      | none =>
        rw [hf] at hj
        cases deployed <;> simp [execIdxs] at hj <;> omega
      | some gf' =>
        rw [hf] at hj
        simp only [execIdxs, List.mem_cons] at hj
        rcases hj with rfl | hj
        · exact Nat.le_refl j
        · exact Nat.le_of_succ_le (ih (i + 1) gf' j hj)

theorem runSteps_head_not_deployed (pid : String) (s : Step) (t : List Step)
    (i : Nat) (gf : GenFields) :
    (runSteps false pid (s :: t) i gf).2.2.head? = some (Event.exec i) := by
  unfold runSteps
  cases hf : s.func gf <;> simp

theorem runSteps_deployed_exec_updatable (pid : String) :
    ∀ (rest : List Step) (i : Nat) (gf : GenFields) (j : Nat),
      j ∈ execIdxs (runSteps true pid rest i gf).2.2 →
      ∃ s, rest[j - i]? = some s ∧ s.updatable = true := by
  intro rest
  induction rest with
  | nil => intro i gf j hj; simp [runSteps, execIdxs] at hj
  | cons s t ih =>
    intro i gf j hj
    unfold runSteps at hj
    by_cases hu : s.updatable
    · rw [if_neg (by simp [hu])] at hj
      cases hf : s.func gf with
      | none =>
        rw [hf] at hj
        simp [execIdxs] at hj
        subst hj
        exact ⟨s, by simp, hu⟩
      | some gf' =>
        rw [hf] at hj
        simp only [execIdxs, List.mem_cons] at hj
        rcases hj with rfl | hj
        · exact ⟨s, by simp, hu⟩
        · obtain ⟨s', hs', hu'⟩ := ih (i + 1) gf' j hj
          have hij : i + 1 ≤ j := runSteps_exec_ge true pid t (i + 1) gf' j hj
          refine ⟨s', ?_, hu'⟩
          have : j - i = (j - (i + 1)) + 1 := by omega
          rw [this, List.getElem?_cons_succ]
          exact hs'
    · rw [if_pos (by simp [hu])] at hj
      simp only [execIdxs] at hj
      obtain ⟨s', hs', hu'⟩ := ih (i + 1) gf j hj
      have hij : i + 1 ≤ j := runSteps_exec_ge true pid t (i + 1) gf j hj
      refine ⟨s', ?_, hu'⟩
      have : j - i = (j - (i + 1)) + 1 := by omega
      rw [this, List.getElem?_cons_succ]
      exact hs'

theorem runSteps_deployed_success_execIdxs (pid : String) :
    ∀ (rest : List Step) (i : Nat) (gf : GenFields),
      (∀ s ∈ rest, ∀ g, (s.func g).isSome = true) →
      execIdxs (runSteps true pid rest i gf).2.2 = updatableIdxs rest i := by
  intro rest
  induction rest with
  | nil => intro i gf _; simp [runSteps, execIdxs, updatableIdxs]
  | cons s t ih =>
    intro i gf hsucc
    unfold runSteps
    by_cases hu : s.updatable
    · rw [if_neg (by simp [hu])]
      cases hf : s.func gf with
      | none =>
        have := hsucc s (List.mem_cons_self s t) gf
        rw [hf] at this; simp at this
      | some gf' =>
        simp only [execIdxs, updatableIdxs, hu, if_pos]
        exact congrArg (i :: ·)
          (ih (i + 1) gf' (fun s' hs' => hsucc s' (List.mem_cons_of_mem s hs')))
    · rw [if_pos (by simp [hu])]
      simp only [execIdxs, updatableIdxs, hu, if_neg]
      exact ih (i + 1) gf (fun s' hs' => hsucc s' (List.mem_cons_of_mem s hs'))

theorem runSteps_success_true (deployed : Bool) (pid : String) :
    ∀ (rest : List Step) (i : Nat) (gf : GenFields),
      (∀ s ∈ rest, ∀ g, (s.func g).isSome = true) →
      (runSteps deployed pid rest i gf).1 = true := by
  intro rest
  induction rest with
  | nil => intro i gf _; simp [runSteps]
  | cons s t ih =>
    intro i gf hsucc
    unfold runSteps
    by_cases hsk : deployed && !s.updatable
    · rw [if_pos hsk]
      exact ih (i + 1) gf (fun s' hs' => hsucc s' (List.mem_cons_of_mem s hs'))
    · rw [if_neg hsk]
      cases hf : s.func gf with
      | none =>
        have := hsucc s (List.mem_cons_self s t) gf
        rw [hf] at this; simp at this
      | some gf' =>
        exact ih (i + 1) gf' (fun s' hs' => hsucc s' (List.mem_cons_of_mem s hs'))

theorem runSteps_true_clear (deployed : Bool) (pid : String) :
    ∀ (rest : List Step) (i : Nat) (gf : GenFields),
      (runSteps deployed pid rest i gf).1 = true →
      ∃ g : GenFields,
        (runSteps deployed pid rest i gf).2.1 = g.clearFailedStep pid := by
  intro rest
  induction rest with
  | nil => intro i gf _; exact ⟨gf, rfl⟩
  | cons s t ih =>
    intro i gf htrue
    unfold runSteps at htrue ⊢
    by_cases hsk : deployed && !s.updatable
    · rw [if_pos hsk] at htrue ⊢
      exact ih (i + 1) gf htrue
    · rw [if_neg hsk] at htrue ⊢
      cases hf : s.func gf with
      | none =>
        rw [hf] at htrue
        cases deployed <;> simp at htrue
      | some gf' =>
        rw [hf] at htrue
        exact ih (i + 1) gf' htrue

theorem runSteps_true_ends_persist (deployed : Bool) (pid : String) :
    ∀ (rest : List Step) (i : Nat) (gf : GenFields),
      (runSteps deployed pid rest i gf).1 = true →
      ∃ tr, (runSteps deployed pid rest i gf).2.2 = tr ++ [Event.persist] := by
  intro rest
  induction rest with
  | nil => intro i gf _; exact ⟨[], rfl⟩
  | cons s t ih =>
    intro i gf htrue
    unfold runSteps at htrue ⊢
    by_cases hsk : deployed && !s.updatable
    · rw [if_pos hsk] at htrue ⊢
      obtain ⟨tr, htr⟩ := ih (i + 1) gf htrue
      exact ⟨Event.skip i :: tr, by simp [htr]⟩
    · rw [if_neg hsk] at htrue ⊢
      cases hf : s.func gf with
      | none =>
        rw [hf] at htrue
        cases deployed <;> simp at htrue
      | some gf' =>
        rw [hf] at htrue
        obtain ⟨tr, htr⟩ := ih (i + 1) gf' htrue
        exact ⟨Event.exec i :: Event.persist :: tr, by simp [htr]⟩

theorem runSteps_deployed_preserves_no_marker (pid : String) :
    ∀ (rest : List Step) (i : Nat) (gf : GenFields),
      (∀ s ∈ rest, ∀ g g', s.func g = some g' →
        (∀ e, g.getEntry pid = some e → e.failed_step = none) →
        (∀ e, g'.getEntry pid = some e → e.failed_step = none)) →
      (∀ e, gf.getEntry pid = some e → e.failed_step = none) →
      ∀ e, (runSteps true pid rest i gf).2.1.getEntry pid = some e →
        e.failed_step = none := by
  intro rest
  induction rest with
  | nil =>
    intro i gf _ _ e he
    exact getEntry_clearFailedStep gf pid e he
  | cons s t ih =>
    intro i gf hpres hnone e he
    unfold runSteps at he
    by_cases hsk : true && !s.updatable
    · rw [if_pos hsk] at he
      exact ih (i + 1) gf
        (fun s' hs' => hpres s' (List.mem_cons_of_mem s hs')) hnone e he
    · rw [if_neg hsk] at he
      cases hf : s.func gf with
      | none =>
        rw [hf] at he
        exact hnone e he
      | some gf' =>
        rw [hf] at he
        exact ih (i + 1) gf'
          (fun s' hs' => hpres s' (List.mem_cons_of_mem s hs'))
          (hpres s (List.mem_cons_self s t) gf gf' hf hnone) e he

/-! ## Validation lemmas -/

theorem inner_foldl_eq (allowed : List String) (pid : String) :
    ∀ (apis : List String) (m : List (String × List String)),
      apis.foldl (fun m api =>
        if api ∈ allowed then m else add_missing_api m api pid) m =
      (apis.filterMap (fun api =>
        if api ∈ allowed then none else some (api, pid))).foldl
          (fun m q => add_missing_api m q.1 q.2) m := by
  intro apis
  induction apis with
  | nil => intro m; rfl
  | cons a t ih =>
    intro m
    by_cases ha : a ∈ allowed
    · simp only [List.foldl_cons, List.filterMap_cons, if_pos ha]
      exact ih m
    · simp only [List.foldl_cons, List.filterMap_cons, if_neg ha]
      exact ih (add_missing_api m a pid)

theorem validate_foldl_eq (allowed : List String) :
    ∀ (projects : List ProjectConfig) (m : List (String × List String)),
      projects.foldl
        (fun m p => p.project.enabled_apis.foldl
          (fun m api =>
            if api ∈ allowed then m
            else add_missing_api m api p.project.project_id) m) m =
      (missing_pairs allowed projects).foldl
        (fun m q => add_missing_api m q.1 q.2) m := by
  intro projects
  induction projects with
  | nil => intro m; rfl
  | cons p t ih =>
    intro m
    simp only [List.foldl_cons, missing_pairs, List.map_cons, List.flatten_cons,
      List.foldl_append]
    rw [inner_foldl_eq allowed p.project.project_id p.project.enabled_apis m]
    exact ih _

theorem reportLookup_add (api pid : String) :
    ∀ (m : List (String × List String)) (a : String),
      reportLookup (add_missing_api m api pid) a =
        if a = api then some ((reportLookup m api).getD [] ++ [pid])
        else reportLookup m a := by
  intro m
  induction m with
  | nil =>
    intro a
    by_cases ha : a = api
    · subst ha; simp [add_missing_api, reportLookup]
    · have ha' : ¬ api = a := fun h => ha h.symm
      simp [add_missing_api, reportLookup, ha, ha']
  | cons h t ih =>
    intro a
    obtain ⟨b, l⟩ := h
    by_cases hb : b = api
    · subst hb
      by_cases ha : a = b
      · subst ha; simp [add_missing_api, reportLookup]
      · have ha' : ¬ b = a := fun h => ha h.symm
        simp [add_missing_api, reportLookup, ha, ha']
    · by_cases hab : b = a
      · subst hab
        simp [add_missing_api, reportLookup, hb]
      · simp only [add_missing_api, if_neg hb, reportLookup, if_neg hab]
        exact ih a

theorem reportLookup_foldl :
    ∀ (ps : List (String × String)) (m : List (String × List String))
      (a : String),
      reportLookup (ps.foldl (fun m q => add_missing_api m q.1 q.2) m) a =
        match reportLookup m a with
        | some l => some (l ++ (ps.filter (fun q => q.1 = a)).map Prod.snd)
        | none =>
          if ((ps.filter (fun q => q.1 = a)).map Prod.snd).isEmpty then none
          else some ((ps.filter (fun q => q.1 = a)).map Prod.snd) := by
  intro ps
  induction ps with
  | nil =>
    intro m a
    cases hm : reportLookup m a <;> simp [hm]
  | cons q t ih =>
    intro m a
    obtain ⟨b, pid⟩ := q
    simp only [List.foldl_cons]
    rw [ih (add_missing_api m b pid) a]
    rw [reportLookup_add b pid m a]
    by_cases hab : a = b
    · subst hab
      simp only [if_pos rfl, List.filter_cons, decide_eq_true_eq, if_pos rfl]
      cases hm : reportLookup m a with
      | none => simp
      | some l => simp
    · have hba : ¬ (b = a) := fun h => hab h.symm
      simp only [if_neg hab, List.filter_cons, decide_eq_true_eq, hba,
        if_false]

theorem add_missing_api_ne_nil (m : List (String × List String))
    (api pid : String) : add_missing_api m api pid ≠ [] := by
  cases m with
  | nil => simp [add_missing_api]
  | cons h t =>
    obtain ⟨b, l⟩ := h
    by_cases hb : b = api <;> simp [add_missing_api, hb]

theorem foldl_add_missing_nil_iff :
    ∀ (ps : List (String × String)) (m : List (String × List String)),
      ps.foldl (fun m q => add_missing_api m q.1 q.2) m = [] ↔
        (m = [] ∧ ps = []) := by
  intro ps
  induction ps with
  | nil => intro m; simp
  | cons q t ih =>
    intro m
    simp only [List.foldl_cons]
    rw [ih (add_missing_api m q.1 q.2)]
    simp [add_missing_api_ne_nil]

theorem missing_pairs_eq_nil_iff (allowed : List String)
    (projects : List ProjectConfig) :
    missing_pairs allowed projects = [] ↔
      ∀ p ∈ projects, ∀ api ∈ p.project.enabled_apis, api ∈ allowed := by
  unfold missing_pairs
  rw [List.flatten_eq_nil_iff]
  constructor
  · intro h p hp api hapi
    have := h _ (List.mem_map_of_mem _ hp)
    rw [List.filterMap_eq_nil_iff] at this
    have := this api hapi
    by_contra hna
    rw [if_neg hna] at this
    exact Option.noConfusion this
  · intro h sub hsub
    obtain ⟨p, hp, rfl⟩ := List.mem_map.mp hsub
    rw [List.filterMap_eq_nil_iff]
    intro api hapi
    rw [if_pos (h p hp api hapi)]

theorem filterMap_filter_map_eq (allowed : List String) (pid a : String) :
    ∀ (apis : List String),
      (((apis.filterMap (fun api =>
          if api ∈ allowed then none else some (api, pid))).filter
            (fun q => q.1 = a)).map Prod.snd) =
        if a ∈ allowed then []
        else (apis.filter (fun x => x = a)).map (fun _ => pid) := by
  intro apis
  induction apis with
  | nil => simp
  | cons x t ih =>
    by_cases hx : x ∈ allowed
    · by_cases ha : a ∈ allowed
      · simp only [List.filterMap_cons, if_pos hx, ih, if_pos ha]
      · have hxa : ¬ (x = a) := fun h => ha (h ▸ hx)
        simp only [List.filterMap_cons, if_pos hx, ih, if_neg ha,
          List.filter_cons, decide_eq_true_eq, hxa, if_false]
    · by_cases ha : a ∈ allowed
      · have hxa : ¬ (x = a) := fun h => hx (h ▸ ha)
        simp only [List.filterMap_cons, if_neg hx, List.filter_cons,
          decide_eq_true_eq, hxa, if_false, ih, if_pos ha]
      · by_cases hxa : x = a
        · simp only [List.filterMap_cons, if_neg hx, List.filter_cons,
            decide_eq_true_eq, hxa, if_true, List.map_cons, ih, if_neg ha]
        · simp only [List.filterMap_cons, if_neg hx, List.filter_cons,
            decide_eq_true_eq, hxa, if_false, ih, if_neg ha]

theorem occs_missing_pairs (allowed : List String) (a : String) :
    ∀ (projects : List ProjectConfig),
      ((missing_pairs allowed projects).filter (fun q => q.1 = a)).map
          Prod.snd =
        if a ∈ allowed then [] else api_requesters a projects := by
  intro projects
  induction projects with
  | nil => simp [missing_pairs, api_requesters]
  | cons p t ih =>
    simp only [missing_pairs, List.map_cons, List.flatten_cons,
      List.filter_append, List.map_append] at ih ⊢
    rw [ih, filterMap_filter_map_eq]
    by_cases ha : a ∈ allowed
    · simp [if_pos ha]
    · simp [if_neg ha, api_requesters]

/-! ## Setup-level helper lemmas -/

theorem setup_project_unfold (base : List Step) (config : ProjectConfig)
    (gf0 : GenFields) :
    setup_project base config gf0 =
      runSteps (deployed_of (gf0.getEntry config.project.project_id))
        config.project.project_id
        ((base ++ config.extra_steps).drop
          (starting_of (gf0.getEntry config.project.project_id) - 1))
        (starting_of (gf0.getEntry config.project.project_id))
        (if entryFalsy (gf0.getEntry config.project.project_id)
          then gf0.setEntry config.project.project_id Entry.empty else gf0) :=
  rfl

theorem deployed_of_true_facts (o : Option Entry)
    (h : deployed_of o = true) :
    entryFalsy o = false ∧ starting_of o = 1 ∧
      ∃ e, o = some e ∧ e.failed_step = none := by
  cases hfal : entryFalsy o with
  | true => rw [deployed_of, hfal] at h; simp at h
  | false =>
    rw [deployed_of, hfal] at h
    simp only [Bool.false_eq_true, if_false] at h
    cases o with
    | none => simp [entryFalsy] at hfal
    | some e =>
      simp only [Option.getD_some] at h
      refine ⟨rfl, ?_, e, rfl, Option.isNone_iff_eq_none.mp h⟩
      simp [starting_of, hfal, Option.isNone_iff_eq_none.mp h]

theorem setup_project_deployed_unfold (base : List Step)
    (config : ProjectConfig) (gf0 : GenFields)
    (h : deployed_of (gf0.getEntry config.project.project_id) = true) :
    setup_project base config gf0 =
      runSteps true config.project.project_id (base ++ config.extra_steps)
        1 gf0 := by
  obtain ⟨hfal, hstart, -⟩ :=
    deployed_of_true_facts (gf0.getEntry config.project.project_id) h
  rw [setup_project_unfold, h, hstart, hfal]
  simp

theorem deployed_of_iff (o : Option Entry) :
    deployed_of o = true ↔
      ∃ e, o = some e ∧ e.isEmptyDict = false ∧ e.failed_step = none := by
  cases o with
  | none => simp [deployed_of, entryFalsy]
  | some e =>
    cases hemp : e.isEmptyDict with
    | true => simp [deployed_of, entryFalsy, hemp]
    | false =>
      simp [deployed_of, entryFalsy, hemp, Option.isNone_iff_eq_none]

/-! ## Claim theorems -/

/-- Claim C1: for every project whose generated-fields entry carries a
`failed_step` marker `k` (1-indexed over the base step list plus extra
steps), `setup_project` starts execution at step `k` — the first trace
event is `exec k` whenever `k` is within range — and never executes a step
of index below `k`; for an entry with no `failed_step` marker the computed
starting step is 1. -/
theorem setup_project_resumes_at_failed_step (base : List Step)
    (config : ProjectConfig) (gf0 : GenFields) (e : Entry) (k : Nat)
    (hentry : gf0.getEntry config.project.project_id = some e)
    (hfs : e.failed_step = some k) (hk : 1 ≤ k) :
    (∀ j ∈ execIdxs (setup_project base config gf0).2.2, k ≤ j) ∧
    (k ≤ (base ++ config.extra_steps).length →
      (setup_project base config gf0).2.2.head? = some (Event.exec k)) ∧
    (∀ o : Option Entry, (∀ e', o = some e' → e'.failed_step = none) →
      starting_of o = 1) := by
  have hfal : entryFalsy (gf0.getEntry config.project.project_id) = false := by
    rw [hentry]
    simp [entryFalsy, Entry.isEmptyDict, hfs]
  have hdep : deployed_of (gf0.getEntry config.project.project_id) = false := by
    rw [deployed_of, hfal, hentry]
    simp [hfs]
  have hstart : starting_of (gf0.getEntry config.project.project_id) = k := by
    rw [starting_of, hfal, hentry]
    simp [hfs]
  have hrew : setup_project base config gf0 =
      runSteps false config.project.project_id
        ((base ++ config.extra_steps).drop (k - 1)) k gf0 := by
    rw [setup_project_unfold, hdep, hstart, hfal]
    simp
  refine ⟨?_, ?_, ?_⟩
  · intro j hj
    rw [hrew] at hj
    exact runSteps_exec_ge false config.project.project_id _ k gf0 j hj
  · intro hklen
    rw [hrew]
    cases hd : (base ++ config.extra_steps).drop (k - 1) with
    | nil =>
      have := List.drop_eq_nil_iff.mp hd
      omega
    | cons s t => exact runSteps_head_not_deployed _ s t k gf0
  · intro o ho
    cases o with
    | none => rfl
    | some e' =>
      have := ho e' rfl
      simp [starting_of, this, entryFalsy]

/-- Witness for C1: with an entry `failed_step = 2` and three steps, the
first trace event of the re-run is the execution of step 2. -/
theorem setup_project_resumes_at_failed_step_witness :
    (setup_project [idStep, idStep, idStep] sampleConfig
      resumeStore).2.2.head? = some (Event.exec 2) :=
  (setup_project_resumes_at_failed_step [idStep, idStep, idStep] sampleConfig
    resumeStore ⟨some 2, []⟩ 2 rfl rfl (by decide)).2.1 (by decide)

/-- Claim C2 counterexample: an existing entry that is the empty record
contains no `failed_step` marker, yet `setup_project` classifies the
project as not deployed (Python's `if not project_generated_fields` treats
an existing empty dict like a missing one), refuting "for every existing
entry that contains no failed_step marker, deployed is true". -/
theorem deployed_classification_counterexample :
    ¬ (deployed_of (some Entry.empty) = true ↔
        ((some Entry.empty : Option Entry).isSome = true ∧
          Entry.empty.failed_step = none)) := by
  decide

/-- Claim C2 (amended): `setup_project` classifies the project as deployed
exactly when its entry exists, is a non-empty record, and contains no
`failed_step` marker; an absent entry, an existing empty record, or a
present `failed_step` marker each classify it as not deployed. -/
theorem deployed_classification (o : Option Entry) :
    deployed_of o = true ↔
      ∃ e, o = some e ∧ e.isEmptyDict = false ∧ e.failed_step = none :=
  deployed_of_iff o

/-- Witness for C2 (amended): a non-empty, marker-free entry is classified
as deployed. -/
theorem deployed_classification_witness :
    deployed_of (some ⟨none, [("project_number", "42")]⟩) = true :=
  (deployed_classification (some ⟨none, [("project_number", "42")]⟩)).mpr
    ⟨⟨none, [("project_number", "42")]⟩, rfl, rfl, rfl⟩

/-- Claim C3: for a project classified as deployed, every executed step
index belongs to an updatable step, and — when no action raises — the
executed indices are exactly the updatable steps' indices in original list
order (all non-updatable steps being skipped without running their
actions). -/
theorem setup_project_deployed_runs_only_updatable (base : List Step)
    (config : ProjectConfig) (gf0 : GenFields)
    (hdep : deployed_of (gf0.getEntry config.project.project_id) = true) :
    (∀ j ∈ execIdxs (setup_project base config gf0).2.2,
      ∃ s, (base ++ config.extra_steps)[j - 1]? = some s ∧
        s.updatable = true) ∧
    ((∀ s ∈ base ++ config.extra_steps, ∀ g, (s.func g).isSome = true) →
      execIdxs (setup_project base config gf0).2.2 =
        updatableIdxs (base ++ config.extra_steps) 1) := by
  have hrew := setup_project_deployed_unfold base config gf0 hdep
  constructor
  · intro j hj
    rw [hrew] at hj
    exact runSteps_deployed_exec_updatable config.project.project_id _ 1
      gf0 j hj
  · intro hsucc
    rw [hrew]
    exact runSteps_deployed_success_execIdxs config.project.project_id _ 1
      gf0 hsucc

/-- Witness for C3: a deployed project with a non-updatable first step and
an updatable second step executes exactly step 2. -/
theorem setup_project_deployed_runs_only_updatable_witness :
    execIdxs (setup_project [idStepNonUpdatable, idStep] sampleConfig
        deployedStore).2.2 =
      updatableIdxs [idStepNonUpdatable, idStep] 1 :=
  (setup_project_deployed_runs_only_updatable [idStepNonUpdatable, idStep]
    sampleConfig deployedStore (by decide)).2
    (fun s hs g => by
      rcases List.mem_cons.mp hs with rfl | hs'
      · rfl
      · rcases List.mem_cons.mp hs' with rfl | h
        · rfl
        · exact absurd h (List.not_mem_nil s))

/-- Claim C4: when a reached step's action raises an exception (a step the
loop does not skip), the pipeline loop returns `false` instead of
propagating the exception, executes no later step (the trace ends at
`exec i`), and records the failing index as `failed_step` in the entry and
persists the store exactly when the project was classified as not
deployed; `setup_project` is this loop started from the computed
classification and starting step. -/
theorem setup_project_step_failure (deployed : Bool) (pid : String)
    (s : Step) (t : List Step) (i : Nat) (gf : GenFields)
    (hfail : s.func gf = none)
    (hrun : deployed = false ∨ s.updatable = true) :
    runSteps deployed pid (s :: t) i gf =
      (false, if deployed then gf else gf.setFailedStep pid i,
        Event.exec i :: if deployed then [] else [Event.persist]) ∧
    (deployed = false → ∀ e, gf.getEntry pid = some e →
      (runSteps deployed pid (s :: t) i gf).2.1.getEntry pid =
        some { e with failed_step := some i }) ∧
    (∀ (base : List Step) (config : ProjectConfig) (gf0 : GenFields),
      setup_project base config gf0 =
        runSteps (deployed_of (gf0.getEntry config.project.project_id))
          config.project.project_id
          ((base ++ config.extra_steps).drop
            (starting_of (gf0.getEntry config.project.project_id) - 1))
          (starting_of (gf0.getEntry config.project.project_id))
          (if entryFalsy (gf0.getEntry config.project.project_id)
            then gf0.setEntry config.project.project_id Entry.empty
            else gf0)) := by
  have hns : (deployed && !s.updatable) = false := by
    rcases hrun with rfl | h
    · simp
    · simp [h]
  have h1 : runSteps deployed pid (s :: t) i gf =
      (false, if deployed then gf else gf.setFailedStep pid i,
        Event.exec i :: if deployed then [] else [Event.persist]) := by
    unfold runSteps
    rw [if_neg (by rw [hns]; exact Bool.false_ne_true), hfail]
    cases deployed <;> simp
  refine ⟨h1, ?_, fun base config gf0 => setup_project_unfold base config gf0⟩
  intro hd e he
  subst hd
  rw [h1]
  simpa using getEntry_setFailedStep gf pid i e he

/-- Witness for C4: a first-time deployment whose only step fails at index
1 returns failure, records `failed_step = 1`, and persists. -/
theorem setup_project_step_failure_witness :
    runSteps false "p1" [failingStep] 1 freshEntryStore =
      (false, ⟨[("p1", ⟨some 1, []⟩)], none⟩,
        [Event.exec 1, Event.persist]) :=
  ((setup_project_step_failure false "p1" failingStep [] 1 freshEntryStore
    rfl (Or.inl rfl)).1).trans (by decide)

/-- Claim C5: if no reached action raises, `setup_project` returns `true`;
whenever it returns `true` the final entry carries no `failed_step` marker
and the run ends with a persist of the store; and for a project classified
as deployed (an update run) whose step actions never introduce a
`failed_step` marker, the final entry never carries one — so a marker can
only remain after a failed first-time deployment. -/
theorem setup_project_completion (base : List Step) (config : ProjectConfig)
    (gf0 : GenFields) :
    ((∀ s ∈ base ++ config.extra_steps, ∀ g, (s.func g).isSome = true) →
      (setup_project base config gf0).1 = true) ∧
    ((setup_project base config gf0).1 = true →
      (∀ e, (setup_project base config gf0).2.1.getEntry
          config.project.project_id = some e → e.failed_step = none) ∧
      ∃ tr, (setup_project base config gf0).2.2 = tr ++ [Event.persist]) ∧
    (deployed_of (gf0.getEntry config.project.project_id) = true →
      (∀ s ∈ base ++ config.extra_steps, ∀ g g', s.func g = some g' →
        (∀ e, g.getEntry config.project.project_id = some e →
          e.failed_step = none) →
        (∀ e, g'.getEntry config.project.project_id = some e →
          e.failed_step = none)) →
      ∀ e, (setup_project base config gf0).2.1.getEntry
        config.project.project_id = some e → e.failed_step = none) := by
  refine ⟨?_, ?_, ?_⟩
  · intro hsucc
    rw [setup_project_unfold]
    exact runSteps_success_true _ _ _ _ _
      (fun s hs => hsucc s (List.drop_subset _ _ hs))
  · intro htrue
    rw [setup_project_unfold] at htrue ⊢
    obtain ⟨g, hg⟩ := runSteps_true_clear _ _ _ _ _ htrue
    refine ⟨?_, runSteps_true_ends_persist _ _ _ _ _ htrue⟩
    intro e he
    rw [hg] at he
    exact getEntry_clearFailedStep g config.project.project_id e he
  · intro hdep hpres
    obtain ⟨-, -, e0, he0, hfs0⟩ :=
      deployed_of_true_facts (gf0.getEntry config.project.project_id) hdep
    rw [setup_project_deployed_unfold base config gf0 hdep]
    exact runSteps_deployed_preserves_no_marker _ _ _ gf0 hpres
      (fun e he => by rw [he0] at he; cases he; exact hfs0)

/-- Witness for C5: a run whose single step succeeds returns `true`. -/
theorem setup_project_completion_witness :
    (setup_project [idStep] sampleConfig emptyStore).1 = true :=
  (setup_project_completion [idStep] sampleConfig emptyStore).1
    (fun s hs g => by
      rcases List.mem_cons.mp hs with rfl | h
      · rfl
      · exact absurd h (List.not_mem_nil s))

/-- Claim C6: with an audit-logs project, a forseti project and the
ordinary projects all configured and selected, the assembled context list
is exactly: the audit-logs context first with no extra steps, the forseti
context second, then the ordinary contexts in declared order, each with a
forseti-access-granting extra step; and in any configuration, every
selected ordinary project's context carries the access-granting extra step
exactly when a forseti block is configured, whether or not the forseti
project itself is selected. -/
theorem assemble_ordering (env : ExternalEnv) (root : RootConfig)
    (want : Finset String) (a : ProjDict) (fc : ForsetiConfig)
    (ha : root.audit_logs_project = some a) (hf : root.forseti = some fc)
    (hwa : want_project want (some a) = true)
    (hwf : want_project want (some fc.project) = true)
    (hwp : ∀ p ∈ root.projects, want_project want (some p) = true) :
    assemble env root want =
      { root := root, project := a, audit_logs_project := none
        extra_steps := [] } ::
      { root := root, project := fc.project, audit_logs_project := some a
        extra_steps :=
          [install_forseti_step env fc.project.project_id,
           get_forseti_access_granter_step env fc.project.project_id,
           get_forseti_access_granter_step env a.project_id] } ::
      root.projects.map (fun p =>
        { root := root, project := p, audit_logs_project := some a
          extra_steps :=
            [get_forseti_access_granter_step env p.project_id] }) ∧
    (∀ (root' : RootConfig) (want' : Finset String) (p : ProjDict),
      p ∈ root'.projects → want_project want' (some p) = true →
      ∃ c ∈ assemble env root' want', c.project = p ∧
        c.extra_steps = (match root'.forseti with
          | some _ => [get_forseti_access_granter_step env p.project_id]
          | none => [])) := by
  constructor
  · unfold assemble audit_contexts forseti_contexts ordinary_contexts
    rw [ha, hf, List.filter_eq_self.mpr (fun p hp => hwp p hp)]
    simp [hwa, hwf]
  · intro root' want' p hp hw
    refine ⟨{ root := root', project := p
              audit_logs_project := root'.audit_logs_project
              extra_steps := match root'.forseti with
                | some _ =>
                  [get_forseti_access_granter_step env p.project_id]
                | none => [] }, ?_, rfl, rfl⟩
    unfold assemble ordinary_contexts
    exact List.mem_append_right _
      (List.mem_map_of_mem _ (List.mem_filter.mpr ⟨hp, hw⟩))

/-- Witness for C6: a concrete fleet (audit-logs + forseti + one data
project, all selected) assembles in the required order. -/
theorem assemble_ordering_witness :
    assemble sampleEnv fleetRoot {"*"} =
      [{ root := fleetRoot, project := auditProj, audit_logs_project := none
         extra_steps := [] },
       { root := fleetRoot, project := forsetiProj
         audit_logs_project := some auditProj
         extra_steps :=
           [install_forseti_step sampleEnv "forseti",
            get_forseti_access_granter_step sampleEnv "forseti",
            get_forseti_access_granter_step sampleEnv "audit"] },
       { root := fleetRoot, project := dataProj
         audit_logs_project := some auditProj
         extra_steps :=
           [get_forseti_access_granter_step sampleEnv "data1"] }] :=
  (assemble_ordering sampleEnv fleetRoot {"*"} auditProj ⟨forsetiProj⟩
    rfl rfl (by decide) (by decide)
    (fun p hp => by
      rcases List.mem_cons.mp hp with rfl | h
      · decide
      · exact absurd h (List.not_mem_nil p))).1

/-- Claim C9: the selection filter accepts a present project definition
exactly when the selection set is the match-all wildcard `{'*'}` or the
definition's project id is a member of the set; a null/absent definition
is never selected, whatever the selection set. -/
theorem want_project_spec (want : Finset String) :
    (∀ d : ProjDict, want_project want (some d) = true ↔
      (want = {"*"} ∨ d.project_id ∈ want)) ∧
    want_project want none = false := by
  refine ⟨fun d => ?_, rfl⟩
  simp [want_project]

/-- Witness for C9: the wildcard set selects a definition, and no set
selects an absent definition. -/
theorem want_project_spec_witness :
    want_project {"*"} (some sampleProj) = true ∧
    want_project {"*"} none = false :=
  ⟨((want_project_spec {"*"}).1 sampleProj).mpr (Or.inl rfl),
   (want_project_spec {"*"}).2⟩

/-- Claim C7: `validate_project_configs` passes whenever no allowlist is
declared; with an allowlist it passes exactly when every assembled
project's requested APIs are all allowed; on failure the report maps each
disallowed-and-requested API to the ids of the projects requesting it
(and only those APIs); and in `main` a validation failure is raised over
the fully assembled list before any step of any project executes (the run
produces no events at all). -/
theorem validate_project_configs_spec (allowed : List String)
    (projects : List ProjectConfig) :
    validate_project_configs none projects = none ∧
    (validate_project_configs (some allowed) projects = none ↔
      ∀ p ∈ projects, ∀ api ∈ p.project.enabled_apis, api ∈ allowed) ∧
    (∀ m, validate_project_configs (some allowed) projects = some m →
      ∀ api, reportLookup m api =
        if api ∉ allowed ∧ api_requesters api projects ≠ []
        then some (api_requesters api projects) else none) ∧
    (∀ (env : ExternalEnv) (base : List Step) (root : RootConfig)
      (want : Finset String) (gf : GenFields)
      (m : List (String × List String)),
      validate_project_configs root.allowed_apis (assemble env root want) =
        some m →
      main_run env base root want gf = (some m, false, gf, [])) := by
  have hfold := validate_foldl_eq allowed projects []
  refine ⟨rfl, ?_, ?_, ?_⟩
  · simp only [validate_project_configs, hfold]
    cases hemp : ((missing_pairs allowed projects).foldl
        (fun m q => add_missing_api m q.1 q.2) []).isEmpty with
    | true =>
      simp only [if_pos rfl]
      have hnil : missing_pairs allowed projects = [] :=
        ((foldl_add_missing_nil_iff _ _).mp (List.isEmpty_iff.mp hemp)).2
      exact iff_of_true rfl
        ((missing_pairs_eq_nil_iff allowed projects).mp hnil)
    | false =>
      simp only [Bool.false_eq_true, if_false]
      constructor
      · intro h; exact Option.noConfusion h
      · intro h
        have hnil : missing_pairs allowed projects = [] :=
          (missing_pairs_eq_nil_iff allowed projects).mpr h
        rw [hnil] at hemp
        simp at hemp
  · intro m hm api
    have hmeq : m = (missing_pairs allowed projects).foldl
        (fun m q => add_missing_api m q.1 q.2) [] := by
      simp only [validate_project_configs, hfold] at hm
      cases h : ((missing_pairs allowed projects).foldl
          (fun m q => add_missing_api m q.1 q.2) []).isEmpty with
      | true => rw [h] at hm; simp at hm
      | false => rw [h] at hm; simp at hm; exact hm.symm
    rw [hmeq, reportLookup_foldl (missing_pairs allowed projects) [] api]
    have hocc := occs_missing_pairs allowed api projects
    simp only [reportLookup]
    rw [hocc]
    by_cases ha : api ∈ allowed
    · simp [ha]
    · rw [if_neg ha]
      by_cases hreq : api_requesters api projects = []
      · simp [hreq, ha]
      · simp [hreq, ha, List.isEmpty_iff]
  · intro env base root want gf m hval
    simp [main_run, hval]

/-- Witness for C7: with allowlist `{a}` and a project requesting `a` and
`b`, validation fails and the report names API `b` with project `p1`. -/
theorem validate_project_configs_spec_witness :
    reportLookup [("b.googleapis.com", ["p1"])] "b.googleapis.com" =
      some ["p1"] :=
  ((validate_project_configs_spec ["a.googleapis.com"] [wProj]).2.2.1
    [("b.googleapis.com", ["p1"])] (by decide) "b.googleapis.com").trans
    (by decide)

/-- Claim C8: once `setup_project` returns `false` for a context, the
driver loop returns at that context — its trace covers only that context's
events, so no later context is attempted and the rule generator is never
invoked; and the rule generator is invoked exactly when the loop runs
every context to success and a forseti block is configured. -/
theorem run_projects_halts_on_failure (base : List Step) (fc : Bool)
    (c : ProjectConfig) (t : List ProjectConfig) (gf : GenFields)
    (hfail : (setup_project base c gf).1 = false) :
    run_projects base fc (c :: t) gf =
      (false, (setup_project base c gf).2.1,
        DEvent.attempt c.project.project_id ::
          (setup_project base c gf).2.2.map
            (DEvent.step c.project.project_id)) ∧
    (∀ (configs : List ProjectConfig) (gf' : GenFields),
      DEvent.ruleGen ∈ (run_projects base fc configs gf').2.2 ↔
        ((run_projects base fc configs gf').1 = true ∧ fc = true)) := by
  constructor
  · simp [run_projects, hfail]
  · intro configs
    induction configs with
    | nil =>
      intro gf'
      cases fc <;> simp [run_projects]
    | cons c' t' ih =>
      intro gf'
      simp only [run_projects]
      split
      next hr =>
        have hrec := ih (setup_project base c' gf').2.1
        constructor
        · intro h
          rcases List.mem_append.mp h with h | h
          · rcases List.mem_cons.mp h with h | h
            · exact DEvent.noConfusion h
            · obtain ⟨e, -, he⟩ := List.mem_map.mp h
              exact DEvent.noConfusion he
          · exact hrec.mp h
        · intro h
          exact List.mem_append.mpr (Or.inr (hrec.mpr h))
      next hr =>
        constructor
        · intro h
          rcases List.mem_cons.mp h with h | h
          · exact DEvent.noConfusion h
          · obtain ⟨e, -, he⟩ := List.mem_map.mp h
            exact DEvent.noConfusion he
        · rintro ⟨h, -⟩
          exact Bool.noConfusion h

/-- Witness for C8: a single failing context halts the driver after that
context's events, with no rule-generator invocation. -/
theorem run_projects_halts_on_failure_witness :
    run_projects [failingStep] true [sampleConfig] emptyStore =
      (false, ⟨[("p1", ⟨some 1, []⟩)], none⟩,
        [DEvent.attempt "p1", DEvent.step "p1" (Event.exec 1),
         DEvent.step "p1" Event.persist]) :=
  ((run_projects_halts_on_failure [failingStep] true sampleConfig []
    emptyStore (by decide)).1).trans (by decide)

/-- Claim C10: the API-enablement step always requests
`deploymentmanager.googleapis.com` and `cloudresourcemanager.googleapis.com`
(plus compute/iam/healthcare/container APIs when the corresponding resource
kinds are declared), even when they are absent from `enabled_apis`; hence
an assembled config can pass cross-project validation while the enabled
set exceeds the allowlist. -/
theorem enable_services_apis_superset (p : ProjDict) :
    "deploymentmanager.googleapis.com" ∈ enable_services_apis_want p ∧
    "cloudresourcemanager.googleapis.com" ∈ enable_services_apis_want p ∧
    ("gce_instances" ∈ p.resources →
      "compute.googleapis.com" ∈ enable_services_apis_want p) ∧
    (("iam_policies" ∈ p.resources ∨ "iam_custom_roles" ∈ p.resources) →
      "iam.googleapis.com" ∈ enable_services_apis_want p) ∧
    ("chc_datasets" ∈ p.resources →
      "healthcare.googleapis.com" ∈ enable_services_apis_want p) ∧
    ("gke_clusters" ∈ p.resources →
      "container.googleapis.com" ∈ enable_services_apis_want p) ∧
    (∃ (allowed : List String) (c : ProjectConfig),
      validate_project_configs (some allowed) [c] = none ∧
      ∃ api ∈ enable_services_apis_want c.project, api ∉ allowed) := by
  have hmono : ∀ (x a : String) (w : Finset String) (cnd : Prop)
      [Decidable cnd], a ∈ w → a ∈ (if cnd then insert x w else w) := by
    intro x a w cnd _ h
    split
    · exact Finset.mem_insert_of_mem h
    · exact h
  simp only [enable_services_apis_want]
  refine ⟨?_, ?_, ?_, ?_, ?_, ?_, ?_⟩
  · exact hmono _ _ _ _ (hmono _ _ _ _ (hmono _ _ _ _ (hmono _ _ _ _
      (Finset.mem_insert_self _ _))))
  · exact hmono _ _ _ _ (hmono _ _ _ _ (hmono _ _ _ _ (hmono _ _ _ _
      (Finset.mem_insert_of_mem (Finset.mem_insert_self _ _)))))
  · intro h
    rw [if_pos h]
    exact hmono _ _ _ _ (hmono _ _ _ _ (hmono _ _ _ _
      (Finset.mem_insert_self _ _)))
  · intro h
    rw [if_pos h]
    exact hmono _ _ _ _ (hmono _ _ _ _ (Finset.mem_insert_self _ _))
  · intro h
    rw [if_pos h]
    exact hmono _ _ _ _ (Finset.mem_insert_self _ _)
  · intro h
    rw [if_pos h]
    exact Finset.mem_insert_self _ _
  · refine ⟨["a.googleapis.com", "b.googleapis.com"], wProj, by decide,
      "deploymentmanager.googleapis.com", by decide, by decide⟩

/-- Witness for C10: a project declaring `gce_instances` gets the compute
API requested even though it is not in its `enabled_apis`. -/
theorem enable_services_apis_superset_witness :
    "compute.googleapis.com" ∈
      enable_services_apis_want ⟨"p2", [], ["gce_instances"]⟩ :=
  (enable_services_apis_superset ⟨"p2", [], ["gce_instances"]⟩).2.2.1
    (by decide)

end CreateProject
